import Mathlib

/-!
Verification of the browsable-hierarchy support of stac-fastapi
(stac_fastapi/types/hierarchy.py).

Python strings are modelled as lists of characters (`PyStr`).  The URL
joining done by the code goes through CPython 3.11's
`urllib.parse.urljoin`, which is modelled here faithfully, including the
WHATWG control-character stripping, scheme detection, netloc splitting,
fragment/query/params splitting and the RFC 3986 dot-segment resolution.
The two branches of `urlsplit` that depend on `ipaddress` / `unicodedata`
(bracketed IPv6 host validation and the NFKC check for a non-ASCII
netloc) are modelled as errors; every theorem below keeps clear of them
(base URLs reaching these branches would raise or need those libraries).
Raising Python code is modelled with `Except`.
-/

namespace StacHierarchy

/-- Python `str` as a list of characters. -/
abbrev PyStr := List Char

/-- Python `s.strip(c)` for a one-character strip set: remove every leading
and trailing occurrence of `c`. -/
def pyStrip (s : PyStr) (c : Char) : PyStr :=
  ((s.dropWhile (fun a => a = c)).reverse.dropWhile (fun a => a = c)).reverse

/-- Python `s.split(sep)` for a one-character separator.  Always returns a
nonempty list; splitting the empty string gives one empty piece. -/
def splitOnChar : PyStr → Char → List PyStr
  | [], _ => [[]]
  | a :: rest, sep =>
    if a = sep then [] :: splitOnChar rest sep
    else
      match splitOnChar rest sep with
      | s :: ss => (a :: s) :: ss
      | [] => [[a]]

/-- Python `sep.join(pieces)` for a one-character separator. -/
def joinChar : List PyStr → Char → PyStr
  | [], _ => []
  | [x], _ => x
  | x :: xs, c => x ++ c :: joinChar xs c

/-- First index at or after `start` satisfying `p` (Python `str.find` with a
start argument, as an `Option`). -/
def findIdxFrom (s : PyStr) (start : Nat) (p : Char → Bool) : Option Nat :=
  ((s.drop start).findIdx? p).map (fun j => j + start)

/-- Last index satisfying `p` (Python `str.rfind`, as an `Option`). -/
def rfindIdx (s : PyStr) (p : Char → Bool) : Option Nat :=
  (s.reverse.findIdx? p).map (fun j => s.length - 1 - j)

/-- Python `s.split(c, 1)`: split at the first occurrence of `c`; when `c`
does not occur the whole string is the first component. -/
def splitFirst (s : PyStr) (c : Char) : PyStr × PyStr :=
  match s.findIdx? (fun a => a = c) with
  | some i => (s.take i, s.drop (i + 1))
  | none => (s, [])

/-! CPython 3.11 urllib.parse: scheme tables and character classes. -/

/-- `urllib.parse.uses_relative` (CPython 3.11). -/
def uses_relative : List PyStr :=
  (["", "ftp", "http", "gopher", "nntp", "imap", "wais", "file", "https", "shttp",
    "mms", "prospero", "rtsp", "rtsps", "rtspu", "sftp", "svn", "svn+ssh", "ws",
    "wss"]).map String.data

/-- `urllib.parse.uses_netloc` (CPython 3.11). -/
def uses_netloc : List PyStr :=
  (["", "ftp", "http", "gopher", "nntp", "telnet", "imap", "wais", "file", "mms",
    "https", "shttp", "snews", "prospero", "rtsp", "rtsps", "rtspu", "rsync",
    "svn", "svn+ssh", "sftp", "nfs", "git", "git+ssh", "ws", "wss"]).map String.data

/-- `urllib.parse.uses_params` (CPython 3.11). -/
def uses_params : List PyStr :=
  (["", "ftp", "hdl", "prospero", "http", "imap", "https", "shttp", "rtsp",
    "rtsps", "rtspu", "sip", "sips", "mms", "sftp", "tel"]).map String.data

/-- `urllib.parse.scheme_chars`: characters valid in a scheme name. -/
def scheme_chars : PyStr :=
  "abcdefghijklmnopqrstuvwxyzABCDEFGHIJKLMNOPQRSTUVWXYZ0123456789+-.".data

/-- Remove every tab, CR and LF (the `_UNSAFE_URL_BYTES_TO_REMOVE` loop of
`urlsplit`). -/
def removeUnsafe (s : PyStr) : PyStr :=
  s.filter (fun c => decide (c ≠ '\t' ∧ c ≠ '\r' ∧ c ≠ '\n'))

/-- Membership in `_WHATWG_C0_CONTROL_OR_SPACE` (code points 0 to 0x20). -/
def isC0OrSpace (c : Char) : Bool := decide (c.toNat ≤ 32)

/-- Python `s.lstrip(_WHATWG_C0_CONTROL_OR_SPACE)`. -/
def lstripC0 (s : PyStr) : PyStr := s.dropWhile isC0OrSpace

/-- Python `s.strip(_WHATWG_C0_CONTROL_OR_SPACE)`. -/
def stripC0 (s : PyStr) : PyStr :=
  ((s.dropWhile isC0OrSpace).reverse.dropWhile isC0OrSpace).reverse

/-- The scheme-detection step of `urlsplit`: when the URL has a colon at a
positive index, starts with an ASCII letter and everything before the colon
is made of `scheme_chars`, return the lowercased scheme and the rest. -/
def schemeSplit (url : PyStr) : Option (PyStr × PyStr) :=
  match url.findIdx? (fun c => c = ':') with
  | some i =>
    if 0 < i ∧ (url.headD ' ').isAlpha ∧
        (url.take i).all (fun c => decide (c ∈ scheme_chars)) then
      some ((url.take i).map Char.toLower, url.drop (i + 1))
    else none
  | none => none

/-- `urllib.parse._splitnetloc` with start 2 already applied: cut at the
first of `/`, `?`, `#`. -/
def splitnetloc (s : PyStr) : PyStr × PyStr :=
  match s.findIdx? (fun c => c = '/' || c = '?' || c = '#') with
  | some i => (s.take i, s.drop i)
  | none => (s, [])

/-- Result of `urlsplit`. -/
structure SplitResult where
  scheme : PyStr
  netloc : PyStr
  path : PyStr
  query : PyStr
  fragment : PyStr
deriving DecidableEq

/-- Fragment and query extraction of `urlsplit` (fragment first, then query),
returning path, query, fragment. -/
def splitFragmentQuery (u : PyStr) : PyStr × PyStr × PyStr :=
  let pf := if '#' ∈ u then splitFirst u '#' else (u, [])
  let pq := if '?' ∈ pf.1 then splitFirst pf.1 '?' else (pf.1, [])
  (pq.1, pq.2, pf.2)

/-- The part of `urlsplit` after scheme detection.  The bracketed-host
validation (CPython's `_check_bracketed_host`, which parses IPv6/IPvFuture
addresses) and the NFKC check for non-ASCII netlocs are not modelled; both
are turned into errors and no theorem below touches them. -/
def urlsplitRest (scheme rest : PyStr) : Except PyStr SplitResult :=
  if rest.take 2 = ['/', '/'] then
    let nl := splitnetloc (rest.drop 2)
    if ('[' ∈ nl.1 ∧ ']' ∉ nl.1) ∨ (']' ∈ nl.1 ∧ '[' ∉ nl.1) then
      Except.error "ValueError: Invalid IPv6 URL".data
    else if '[' ∈ nl.1 ∧ ']' ∈ nl.1 then
      Except.error "model: bracketed host validation not modelled".data
    else if ¬ nl.1.all (fun c => decide (c.toNat ≤ 127)) then
      Except.error "model: NFKC check for non-ascii netloc not modelled".data
    else
      let s := splitFragmentQuery nl.2
      Except.ok ⟨scheme, nl.1, s.1, s.2.1, s.2.2⟩
  else
    let s := splitFragmentQuery rest
    Except.ok ⟨scheme, [], s.1, s.2.1, s.2.2⟩

/-- Model of CPython 3.11 `urllib.parse.urlsplit` with `allow_fragments`
true: WHATWG stripping, unsafe-byte removal, scheme detection, netloc /
fragment / query extraction. -/
def urlsplit (url0 scheme0 : PyStr) : Except PyStr SplitResult :=
  let url1 := removeUnsafe (lstripC0 url0)
  let dscheme := removeUnsafe (stripC0 scheme0)
  match schemeSplit url1 with
  | some p => urlsplitRest p.1 p.2
  | none => urlsplitRest dscheme url1

/-- Result of `urlparse`. -/
structure ParseResult where
  scheme : PyStr
  netloc : PyStr
  path : PyStr
  params : PyStr
  query : PyStr
  fragment : PyStr
deriving DecidableEq

/-- `urllib.parse._splitparams`.  Only ever called on a path containing a
semicolon; the fallback pairs for the impossible no-semicolon cases are
never reached under that precondition. -/
def splitparams (url : PyStr) : PyStr × PyStr :=
  if '/' ∈ url then
    match rfindIdx url (fun c => c = '/') with
    | some r =>
      match findIdxFrom url r (fun c => c = ';') with
      | some i => (url.take i, url.drop (i + 1))
      | none => (url, [])
    | none => (url, [])
  else
    match url.findIdx? (fun c => c = ';') with
    | some i => (url.take i, url.drop (i + 1))
    | none => (url, [])

/-- Model of CPython 3.11 `urllib.parse.urlparse`: `urlsplit` plus params
splitting for schemes in `uses_params`. -/
def urlparse (url scheme0 : PyStr) : Except PyStr ParseResult := do
  let s ← urlsplit url scheme0
  if s.scheme ∈ uses_params ∧ ';' ∈ s.path then
    let p := splitparams s.path
    Except.ok ⟨s.scheme, s.netloc, p.1, p.2, s.query, s.fragment⟩
  else
    Except.ok ⟨s.scheme, s.netloc, s.path, [], s.query, s.fragment⟩

/-- Model of CPython 3.11 `urllib.parse.urlunsplit`. -/
def urlunsplit (scheme netloc url query fragment : PyStr) : PyStr :=
  let url1 :=
    if netloc ≠ [] ∨ (scheme ≠ [] ∧ scheme ∈ uses_netloc ∧ url.take 2 ≠ ['/', '/']) then
      let url' := if url ≠ [] ∧ url.take 1 ≠ ['/'] then '/' :: url else url
      '/' :: '/' :: (netloc ++ url')
    else url
  let url2 := if scheme ≠ [] then scheme ++ ':' :: url1 else url1
  let url3 := if query ≠ [] then url2 ++ '?' :: query else url2
  if fragment ≠ [] then url3 ++ '#' :: fragment else url3

/-- Model of CPython 3.11 `urllib.parse.urlunparse`. -/
def urlunparse (p : ParseResult) : PyStr :=
  let url := if p.params ≠ [] then p.path ++ ';' :: p.params else p.path
  urlunsplit p.scheme p.netloc url p.query p.fragment

/-- One step of the dot-segment resolution loop of `urljoin`
(`resolved_path.pop()` on an empty list is ignored, like the caught
`IndexError`). -/
def resolveStep (acc : List PyStr) (seg : PyStr) : List PyStr :=
  if seg = ['.', '.'] then acc.dropLast
  else if seg = ['.'] then acc
  else acc ++ [seg]

/-- The dot-segment resolution loop of `urljoin`. -/
def resolveSegs (segs : List PyStr) : List PyStr := segs.foldl resolveStep []

/-- The slice assignment `segments[1:-1] = filter(None, segments[1:-1])` of
`urljoin`: drop empty interior segments, keep first and last. -/
def filterInterior : List PyStr → List PyStr
  | [] => []
  | [x] => [x]
  | x :: xs => x :: (xs.dropLast.filter (fun s => decide (s ≠ []))) ++ [xs.getLastD []]

/-- Model of CPython 3.11 `urllib.parse.urljoin` with `allow_fragments`
true. -/
def urljoin (base url : PyStr) : Except PyStr PyStr :=
  if base = [] then Except.ok url
  else if url = [] then Except.ok base
  else do
    let b ← urlparse base []
    let u ← urlparse url b.scheme
    if u.scheme ≠ b.scheme ∨ u.scheme ∉ uses_relative then
      Except.ok url
    else if u.scheme ∈ uses_netloc ∧ u.netloc ≠ [] then
      Except.ok (urlunparse u)
    else
      let netloc := if u.scheme ∈ uses_netloc then b.netloc else u.netloc
      if u.path = [] ∧ u.params = [] then
        Except.ok (urlunparse ⟨u.scheme, netloc, b.path, b.params,
          (if u.query = [] then b.query else u.query), u.fragment⟩)
      else
        let base_parts0 := splitOnChar b.path '/'
        let base_parts :=
          if base_parts0.getLastD [] ≠ [] then base_parts0.dropLast else base_parts0
        let segments :=
          if u.path.take 1 = ['/'] then splitOnChar u.path '/'
          else filterInterior (base_parts ++ splitOnChar u.path '/')
        let resolved0 := resolveSegs segments
        let resolved :=
          if segments.getLastD [] = ['.'] ∨ segments.getLastD [] = ['.', '.'] then
            resolved0 ++ [[]]
          else resolved0
        let joined := joinChar resolved '/'
        let path := if joined = [] then ['/'] else joined
        Except.ok (urlunparse ⟨u.scheme, netloc, path, u.params, u.query, u.fragment⟩)

/-! The data model of stac_fastapi/types/hierarchy.py.

An `ItemPath` is `Tuple[str, str]`.  The TypedDict constructors
(`BrowsableNode`, `CollectionNode`, `CatalogNode`) build plain Python
dicts; a parsed node is one of three dict shapes, distinguished by which
keys it carries, which the inductive `BrowsableNode` below records:

  - `collection` : keys collection_id, children, items;
  - `catalog`    : keys catalog_id, children, items, title, description;
  - `generic`    : keys children, items.

An `Option` field collapses a missing key and a key stored with value
`None`; `d.get(k)` returns `None` in both cases, and the code only ever
reads optional fields through `.get`, so the two are indistinguishable to
every function modelled here. -/

/-- Item path: `(collection_id, item_id)`. -/
abbrev ItemPath := PyStr × PyStr

/-- A node dict as produced by `parse_hierarchy` / the TypedDict
constructors. -/
inductive BrowsableNode where
  | collection (collection_id : PyStr) (children : List BrowsableNode)
      (items : Option (List ItemPath))
  | catalog (catalog_id : PyStr) (children : List BrowsableNode)
      (items : Option (List ItemPath)) (title : Option PyStr) (description : Option PyStr)
  | generic (children : List BrowsableNode) (items : Option (List ItemPath))

/-- Python `k in node` for the three node dict shapes. -/
def nodeHasKey : BrowsableNode → String → Bool
  | .collection .., k => ["collection_id", "children", "items"].contains k
  | .catalog .., k => ["catalog_id", "children", "items", "title", "description"].contains k
  | .generic .., k => ["children", "items"].contains k

/-- The `children` value of a node dict. -/
def nodeChildren : BrowsableNode → List BrowsableNode
  | .collection _ ch _ => ch
  | .catalog _ ch _ _ _ => ch
  | .generic ch _ => ch

/-- The `items` value of a node dict. -/
def nodeItems : BrowsableNode → Option (List ItemPath)
  | .collection _ _ its => its
  | .catalog _ _ its _ _ => its
  | .generic _ its => its

/-- Python `a or b` where `a` is an optional string (`None` or `str`) and
`b` a string: `b` when `a` is `None` or empty, both being falsy. -/
def pyOrStr (a : Option PyStr) (b : PyStr) : PyStr :=
  match a with
  | some s => if s = [] then b else s
  | none => b

/-- A link dict; `title` is `none` when the dict carries no title key. -/
structure Link where
  rel : PyStr
  type : PyStr
  title : Option PyStr
  href : PyStr
deriving DecidableEq

/-- stac_pydantic `Relations.child.value`. -/
def relChild : PyStr := "child".data

/-- stac_pydantic `Relations.root.value`. -/
def relRoot : PyStr := "root".data

/-- stac_pydantic `Relations.self.value`. -/
def relSelf : PyStr := "self".data

/-- stac_pydantic `Relations.item.value`. -/
def relItem : PyStr := "item".data

/-- stac_pydantic `MimeTypes.json`. -/
def mimeJson : PyStr := "application/json".data

/-- stac_pydantic `STAC_VERSION` (the exact version string is irrelevant to
every claim). -/
def STAC_VERSION : PyStr := "1.0.0".data

/-- stac_pydantic `Catalog` model with the fields the code sets. -/
structure Catalog where
  type : PyStr
  id : PyStr
  description : PyStr
  stac_version : PyStr
  links : List Link
deriving DecidableEq

/-- `browsable_child_link(node, base_url)`.

The source tests `"collection_id" in node`, then `"catalog_id" in node`;
with the dict shapes of `BrowsableNode` these tests hold exactly for the
`collection` resp. `catalog` constructors, so the match below is the same
case split.

In the collection branch the source computes
`urljoin([base_url, f"collections/.."])`: `urljoin` is called with a
single list argument, which raises
`TypeError: urljoin() missing 1 required positional argument`, so that
branch never returns and is modelled as an error.  In the catalog branch
`title` is `node.get("title") or node.get("catalog_id")` (Python `or`,
falling back on a falsy title) and `href` is
`"/".join([base_url.strip("/"), node["catalog_id"]])`.  A node with
neither key falls off the end of the function, returning `None`. -/
def browsable_child_link (node : BrowsableNode) (base_url : PyStr) :
    Except PyStr (Option Link) :=
  match node with
  | .collection .. =>
    Except.error "TypeError: urljoin() missing 1 required positional argument: url".data
  | .catalog k _ _ t _ =>
    Except.ok (some ⟨relChild, mimeJson, some (pyOrStr t k),
      pyStrip base_url '/' ++ '/' :: k⟩)
  | .generic .. => Except.ok none

/-- `browsable_item_link(item_path, base_url)`. -/
def browsable_item_link (item_path : ItemPath) (base_url : PyStr) :
    Except PyStr Link := do
  let h ← urljoin base_url
    ("collections/".data ++ item_path.1 ++ "/items/".data ++ item_path.2)
  Except.ok ⟨relItem, mimeJson, none, h⟩

/-- A `CatalogNode` dict, the argument type of `browsable_catalog`:
keys catalog_id, title, description, children, items.  `items` is an
`Option` because `parse_hierarchy` stores `d.get("items")`, which is
`None` when the input has no items; iterating it then raises. -/
structure CatalogNode where
  catalog_id : PyStr
  title : Option PyStr
  description : Option PyStr
  children : List BrowsableNode
  items : Option (List ItemPath)

/-- Evaluate a Python list comprehension whose element expressions can
raise: the first error wins, otherwise the list of results. -/
def exceptList : List (Except PyStr α) → Except PyStr (List α)
  | [] => Except.ok []
  | Except.error e :: _ => Except.error e
  | Except.ok v :: xs =>
    match exceptList xs with
    | Except.error e => Except.error e
    | Except.ok vs => Except.ok (v :: vs)

/-- stac_pydantic validation of the `links` field of `Catalog(...)`: a
`None` entry (produced by `browsable_child_link` on a node with neither id
key) is not a valid `Link` and raises a `ValidationError`. -/
def validateLinks : List (Option Link) → Except PyStr (List Link)
  | [] => Except.ok []
  | some l :: xs =>
    match validateLinks xs with
    | Except.error e => Except.error e
    | Except.ok ls => Except.ok (l :: ls)
  | none :: _ => Except.error "ValidationError: value is not a valid Link".data

/-- `browsable_catalog(node, catalog_path, base_url)`.

Evaluation order follows the source: the child-link comprehension, the
item-link comprehension (iterating `node["items"]`, a TypeError when that
value is `None`), then the two standard links (the self link resolving
`urljoin(base_url, f"/catalogs/..")` on the slash-stripped catalog path),
then `Catalog(...)` validation. -/
def browsable_catalog (node : CatalogNode) (catalog_path base_url : PyStr) :
    Except PyStr Catalog := do
  let children_links ← exceptList
    (node.children.map (fun child => browsable_child_link child base_url))
  let items ← match node.items with
    | some l => Except.ok l
    | none => Except.error "TypeError: NoneType object is not iterable".data
  let item_links ← exceptList
    (items.map (fun item => browsable_item_link item base_url))
  let self_href ← urljoin base_url ("/catalogs/".data ++ pyStrip catalog_path '/')
  let standard_links : List (Option Link) :=
    [some ⟨relRoot, mimeJson, none, base_url⟩,
     some ⟨relSelf, mimeJson, none, self_href⟩]
  let links ← validateLinks (children_links ++ item_links.map some ++ standard_links)
  Except.ok ⟨"Catalog".data, node.catalog_id,
    pyOrStr node.description ("Generated description for ".data ++ node.catalog_id),
    STAC_VERSION, links⟩

/-- Input mapping of `parse_hierarchy`: the keys the parser reads, each
`Option` marking presence.  Keys the parser never reads are irrelevant and
omitted. -/
inductive InDict where
  | mk (collection_id : Option PyStr) (catalog_id : Option PyStr)
      (title : Option PyStr) (description : Option PyStr)
      (children : Option (List InDict)) (items : Option (List ItemPath))

/-- The `collection_id` value of an input mapping. -/
def InDict.collection_id : InDict → Option PyStr
  | .mk c _ _ _ _ _ => c

/-- The `catalog_id` value of an input mapping. -/
def InDict.catalog_id : InDict → Option PyStr
  | .mk _ k _ _ _ _ => k

/-- The `title` value of an input mapping. -/
def InDict.title : InDict → Option PyStr
  | .mk _ _ t _ _ _ => t

/-- The `description` value of an input mapping. -/
def InDict.description : InDict → Option PyStr
  | .mk _ _ _ de _ _ => de

/-- The `children` value of an input mapping. -/
def InDict.children : InDict → Option (List InDict)
  | .mk _ _ _ _ ch _ => ch

/-- The `items` value of an input mapping. -/
def InDict.items : InDict → Option (List ItemPath)
  | .mk _ _ _ _ _ its => its

mutual

/-- `parse_hierarchy(d)`: recursive parse of the `children` list when the
key is present, then classification on `collection_id`, `catalog_id`,
neither — in that order, first match winning. -/
def parse_hierarchy : InDict → BrowsableNode
  | .mk cid kid t de ch its =>
    let children := match ch with
      | some cs => parseChildren cs
      | none => []
    match cid with
    | some c => .collection c children its
    | none =>
      match kid with
      | some k => .catalog k children its t de
      | none => .generic children its

/-- The list comprehension `[parse_hierarchy(child) for child in d["children"]]`. -/
def parseChildren : List InDict → List BrowsableNode
  | [] => []
  | d :: ds => parse_hierarchy d :: parseChildren ds

end

/-- Map a possibly-failing function over a list, failing when any element
fails (explicit recursion so that it unfolds structurally). -/
def optionMapList (f : InDict → Option BrowsableNode) :
    List InDict → Option (List BrowsableNode)
  | [] => some []
  | d :: ds => do
    let v ← f d
    let vs ← optionMapList f ds
    some (v :: vs)

/-- Fuel-indexed variant of `parse_hierarchy`, used to state that the
recursion terminates within fuel equal to the input tree size. -/
def parse_fuel : Nat → InDict → Option BrowsableNode
  | 0, _ => none
  | n + 1, .mk cid kid t de ch its => do
    let children ← match ch with
      | some cs => optionMapList (parse_fuel n) cs
      | none => some []
    some (match cid with
      | some c => BrowsableNode.collection c children its
      | none => match kid with
        | some k => BrowsableNode.catalog k children its t de
        | none => BrowsableNode.generic children its)

mutual

/-- Number of nodes of an input mapping tree. -/
def InDict.size : InDict → Nat
  | .mk _ _ _ _ ch _ =>
    1 + (match ch with | some cs => sizeChildren cs | none => 0)

/-- Total size of a list of input mappings. -/
def sizeChildren : List InDict → Nat
  | [] => 0
  | d :: ds => InDict.size d + sizeChildren ds

end

/-- Identifier characters used to delimit the scope of the URL-shape
theorems: ASCII letters, digits, dash, underscore.  Such characters
survive every splitting step of `urljoin` unchanged. -/
def plainChar (c : Char) : Prop :=
  (97 ≤ c.toNat ∧ c.toNat ≤ 122) ∨ (65 ≤ c.toNat ∧ c.toNat ≤ 90) ∨
    (48 ≤ c.toNat ∧ c.toNat ≤ 57) ∨ c = '-' ∨ c = '_'

instance (c : Char) : Decidable (plainChar c) := by
  unfold plainChar
  infer_instance

/-! Theorems.  First the equation and helper lemmas for the
well-founded-recursion definitions, then the claims. -/

/-- Unfolding lemma for `parse_hierarchy` on a constructor. -/
theorem parse_hierarchy_mk (cid kid t de : Option PyStr) (ch : Option (List InDict))
    (its : Option (List ItemPath)) :
    parse_hierarchy (.mk cid kid t de ch its) =
      (match cid with
      | some c => BrowsableNode.collection c
          (match ch with | some cs => parseChildren cs | none => []) its
      | none =>
        match kid with
        | some k => BrowsableNode.catalog k
            (match ch with | some cs => parseChildren cs | none => []) its t de
        | none => BrowsableNode.generic
            (match ch with | some cs => parseChildren cs | none => []) its) := by
  rw [parse_hierarchy.eq_def]

/-- `parseChildren` on the empty list. -/
theorem parseChildren_nil : parseChildren [] = [] := by
  simp [parseChildren]

/-- `parseChildren` on a cons. -/
theorem parseChildren_cons (d : InDict) (ds : List InDict) :
    parseChildren (d :: ds) = parse_hierarchy d :: parseChildren ds := by
  simp [parseChildren]

/-- `parseChildren` is the elementwise map of `parse_hierarchy`. -/
theorem parseChildren_eq_map (l : List InDict) :
    parseChildren l = l.map parse_hierarchy := by
  induction l with
  | nil => simp [parseChildren_nil]
  | cons d ds ih => simp [parseChildren_cons, ih]

/-- The parsed node's children value, for any input. -/
theorem nodeChildren_parse_hierarchy (d : InDict) :
    nodeChildren (parse_hierarchy d) = (d.children.getD []).map parse_hierarchy := by
  obtain ⟨cid, kid, t, de, ch, its⟩ := d
  rw [parse_hierarchy_mk]
  rcases cid with _ | c
  · rcases kid with _ | k <;> rcases ch with _ | cs <;>
      simp [nodeChildren, InDict.children, parseChildren_eq_map]
  · rcases ch with _ | cs <;> simp [nodeChildren, InDict.children, parseChildren_eq_map]

/-- The parsed node's items value, for any input. -/
theorem nodeItems_parse_hierarchy (d : InDict) :
    nodeItems (parse_hierarchy d) = d.items := by
  obtain ⟨cid, kid, t, de, ch, its⟩ := d
  rw [parse_hierarchy_mk]
  rcases cid with _ | c
  · rcases kid with _ | k <;> simp [nodeItems, InDict.items]
  · simp [nodeItems, InDict.items]

/-- C6: `parse_hierarchy` classifies every input as exactly one of
collection node, catalog node, generic node — tested in that order with
the first match winning.  An input with a `collection_id` yields a
collection node carrying that id, carrying a `collection_id` key and no
`catalog_id` key; an input with a `catalog_id` but no `collection_id`
yields a catalog node whose title and description are the input values;
an input with neither yields a generic node. -/
theorem c6_parse_hierarchy_classification (d : InDict) :
    (∀ c, d.collection_id = some c →
      parse_hierarchy d =
        BrowsableNode.collection c (parseChildren (d.children.getD [])) d.items ∧
      nodeHasKey (parse_hierarchy d) "collection_id" = true ∧
      nodeHasKey (parse_hierarchy d) "catalog_id" = false) ∧
    (d.collection_id = none → ∀ k, d.catalog_id = some k →
      parse_hierarchy d =
        BrowsableNode.catalog k (parseChildren (d.children.getD [])) d.items
          d.title d.description) ∧
    (d.collection_id = none → d.catalog_id = none →
      parse_hierarchy d =
        BrowsableNode.generic (parseChildren (d.children.getD [])) d.items) := by
  obtain ⟨cid, kid, t, de, ch, its⟩ := d
  refine ⟨?_, ?_, ?_⟩
  · intro c hc
    simp only [InDict.collection_id] at hc
    subst hc
    rw [parse_hierarchy_mk]
    rcases ch with _ | cs <;>
      simp [nodeHasKey, InDict.children, InDict.items, parseChildren_nil]
  · intro hc k hk
    simp only [InDict.collection_id] at hc
    simp only [InDict.catalog_id] at hk
    subst hc; subst hk
    rw [parse_hierarchy_mk]
    rcases ch with _ | cs <;>
      simp [InDict.children, InDict.items, InDict.title, InDict.description, parseChildren_nil]
  · intro hc hk
    simp only [InDict.collection_id] at hc
    simp only [InDict.catalog_id] at hk
    subst hc; subst hk
    rw [parse_hierarchy_mk]
    rcases ch with _ | cs <;>
      simp [InDict.children, InDict.items, parseChildren_nil]

/-- Witness for C6: a concrete input carrying both id keys parses as a
collection node (first match wins) without a `catalog_id` key. -/
theorem c6_witness :
    parse_hierarchy (.mk (some "c".data) (some "k".data) none none none none) =
      BrowsableNode.collection "c".data (parseChildren []) none ∧
    nodeHasKey
      (parse_hierarchy (.mk (some "c".data) (some "k".data) none none none none))
      "catalog_id" = false := by
  have h := (c6_parse_hierarchy_classification
    (.mk (some "c".data) (some "k".data) none none none none)).1 "c".data rfl
  exact ⟨h.1, h.2.2⟩

/-- C8: an input with no `items` key parses to a node whose items value is
the no-value sentinel `None`, not an empty list — in each of the three
classification branches, since the equation holds for every input. -/
theorem c8_missing_items_parses_to_none (d : InDict) (h : d.items = none) :
    nodeItems (parse_hierarchy d) = none ∧
    nodeItems (parse_hierarchy d) ≠ some [] := by
  rw [nodeItems_parse_hierarchy, h]
  exact ⟨rfl, by simp⟩

/-- Witness for C8 at a concrete input of each classification. -/
theorem c8_witness :
    nodeItems (parse_hierarchy (.mk (some "c".data) none none none none none)) = none ∧
    nodeItems (parse_hierarchy (.mk none (some "k".data) none none none none)) = none ∧
    nodeItems (parse_hierarchy (.mk none none none none none none)) = none :=
  ⟨(c8_missing_items_parses_to_none (.mk (some "c".data) none none none none none) rfl).1,
   (c8_missing_items_parses_to_none (.mk none (some "k".data) none none none none) rfl).1,
   (c8_missing_items_parses_to_none (.mk none none none none none none) rfl).1⟩

/-- C9: parsing is structurally recursive on children: with a `children`
key the parsed children are the parses of the input children, index by
index and with equal lengths; without the key the children list is
empty. -/
theorem c9_parse_hierarchy_children (d : InDict) :
    (∀ cs, d.children = some cs →
      nodeChildren (parse_hierarchy d) = cs.map parse_hierarchy ∧
      (nodeChildren (parse_hierarchy d)).length = cs.length ∧
      ∀ i : Nat, (nodeChildren (parse_hierarchy d)).get? i =
        (cs.get? i).map parse_hierarchy) ∧
    (d.children = none → nodeChildren (parse_hierarchy d) = []) := by
  constructor
  · intro cs hcs
    have h := nodeChildren_parse_hierarchy d
    rw [hcs] at h
    simp only [Option.getD_some] at h
    refine ⟨h, by rw [h]; simp, ?_⟩
    intro i
    rw [h]
    simp [List.get?_map]
  · intro hcs
    have h := nodeChildren_parse_hierarchy d
    rw [hcs] at h
    simpa using h

/-- Witness for C9 at a concrete two-child input. -/
theorem c9_witness :
    nodeChildren (parse_hierarchy (.mk none (some "k".data) none none
        (some [.mk (some "a".data) none none none none none,
               .mk none none none none none none]) none)) =
      [parse_hierarchy (.mk (some "a".data) none none none none none),
       parse_hierarchy (.mk none none none none none none)] :=
  ((c9_parse_hierarchy_children (.mk none (some "k".data) none none
      (some [.mk (some "a".data) none none none none none,
             .mk none none none none none none]) none)).1
    [.mk (some "a".data) none none none none none,
     .mk none none none none none none] rfl).1

/-- Every input tree has at least one node. -/
theorem size_pos (d : InDict) : 1 ≤ InDict.size d := by
  obtain ⟨cid, kid, t, de, ch, its⟩ := d
  rcases ch with _ | cs <;> simp [InDict.size.eq_def]

/-- `sizeChildren` on a cons. -/
theorem sizeChildren_cons (d : InDict) (ds : List InDict) :
    sizeChildren (d :: ds) = InDict.size d + sizeChildren ds := by
  simp [sizeChildren]

/-- Fueled parsing of a children list succeeds given enough fuel for the
total size, assuming it does for each node. -/
theorem parse_fuel_children (n : Nat)
    (ih : ∀ d : InDict, InDict.size d ≤ n → parse_fuel n d = some (parse_hierarchy d)) :
    ∀ cs : List InDict, sizeChildren cs ≤ n →
      optionMapList (parse_fuel n) cs = some (parseChildren cs) := by
  intro cs
  induction cs with
  | nil => intro _; simp [optionMapList, parseChildren_nil]
  | cons d ds ihds =>
    intro hle
    rw [sizeChildren_cons] at hle
    have hd := size_pos d
    have h1 : parse_fuel n d = some (parse_hierarchy d) := ih d (by omega)
    have h2 : optionMapList (parse_fuel n) ds = some (parseChildren ds) := ihds (by omega)
    simp [optionMapList, h1, h2, parseChildren_cons]

/-- C10: on every (finite, acyclic — inherent in the inductive input type)
input mapping, the recursion of `parse_hierarchy` terminates within fuel
bounded by the input tree size and produces the parse. -/
theorem c10_parse_terminates_within_size (d : InDict) (n : Nat)
    (h : InDict.size d ≤ n) : parse_fuel n d = some (parse_hierarchy d) := by
  induction n generalizing d with
  | zero => exact absurd h (by have := size_pos d; omega)
  | succ n ih =>
    obtain ⟨cid, kid, t, de, ch, its⟩ := d
    rw [parse_hierarchy_mk]
    rcases ch with _ | cs
    · rcases cid with _ | c
      · rcases kid with _ | k <;> simp [parse_fuel]
      · simp [parse_fuel]
    · have hsz : InDict.size (.mk cid kid t de (some cs) its) = 1 + sizeChildren cs := by
        rw [InDict.size.eq_def]
      rw [hsz] at h
      have hmap : optionMapList (parse_fuel n) cs = some (parseChildren cs) :=
        parse_fuel_children n (fun d hd => ih d hd) cs (by omega)
      rcases cid with _ | c
      · rcases kid with _ | k <;> simp [parse_fuel, hmap]
      · simp [parse_fuel, hmap]

/-- Witness for C10 at a concrete nested input with its exact size as
fuel. -/
theorem c10_witness :
    parse_fuel 2 (.mk none (some "k".data) none none
        (some [.mk (some "a".data) none none none none none]) none) =
      some (parse_hierarchy (.mk none (some "k".data) none none
        (some [.mk (some "a".data) none none none none none]) none)) :=
  c10_parse_terminates_within_size _ 2 (by
    have h1 : InDict.size (.mk (some "a".data) none none none none none) = 1 := by
      rw [InDict.size.eq_def]
      simp
    have h2 : sizeChildren [] = 0 := by simp [sizeChildren]
    have h3 : InDict.size (.mk none (some "k".data) none none
        (some [.mk (some "a".data) none none none none none]) none) =
        1 + sizeChildren [.mk (some "a".data) none none none none none] := by
      rw [InDict.size.eq_def]
    rw [h3, sizeChildren_cons, h1, h2])

/-- C1 (code bug): for every node carrying a `collection_id` key,
`browsable_child_link` raises a `TypeError` — the source calls `urljoin`
with one list argument instead of two string arguments — so no child link
is ever returned for a collection node. -/
theorem c1_collection_child_link_raises (cid : PyStr) (ch : List BrowsableNode)
    (its : Option (List ItemPath)) (base_url : PyStr) :
    browsable_child_link (.collection cid ch its) base_url =
      Except.error
        "TypeError: urljoin() missing 1 required positional argument: url".data := rfl

/-- C4 (amended): for every node carrying a `catalog_id` key (and no
`collection_id` key), the child link has rel `child`, type
`application/json`, title the node's title when present and non-empty
(Python `or`) else the catalog id, and href the base URL stripped of
leading and trailing slashes, joined with `/` and the catalog id. -/
theorem c4_catalog_child_link (k : PyStr) (ch : List BrowsableNode)
    (its : Option (List ItemPath)) (t de : Option PyStr) (base_url : PyStr) :
    browsable_child_link (.catalog k ch its t de) base_url =
      Except.ok (some ⟨relChild, mimeJson, some (pyOrStr t k),
        pyStrip base_url '/' ++ '/' :: k⟩) := rfl

/-- Counterexample for C4 as stated: with base URL `/api/` and a present
but empty title, the code strips the leading slash too (`strip("/")`) and
falls back to the catalog id for the title, so neither the claimed href
`/api/c` nor the claimed title (the present title, here empty) is
returned. -/
theorem c4_counterexample :
    browsable_child_link (.catalog "c".data [] none (some "".data) none) "/api/".data =
      Except.ok (some ⟨relChild, mimeJson, some "c".data, "api/c".data⟩) ∧
    "api/c".data ≠ "/api/c".data ∧
    (some "c".data : Option PyStr) ≠ some "".data := by
  refine ⟨rfl, by decide, by decide⟩

/-- `exceptList` succeeds exactly when every element does, returning the
successes in order. -/
theorem exceptList_ok_elim {α : Type} : ∀ (xs : List (Except PyStr α)) (ys : List α),
    exceptList xs = Except.ok ys → xs = ys.map Except.ok := by
  intro xs
  induction xs with
  | nil =>
    intro ys h
    simp only [exceptList] at h
    injection h with h
    subst h
    rfl
  | cons x xs ih =>
    intro ys h
    cases x with
    | error e => simp [exceptList] at h
    | ok v =>
      simp only [exceptList] at h
      cases hx : exceptList xs with
      | error e => rw [hx] at h; simp at h
      | ok vs =>
        rw [hx] at h
        simp only [] at h
        injection h with h
        subst h
        simp [ih vs hx]

/-- `validateLinks` succeeds exactly when every entry is an actual link. -/
theorem validateLinks_ok_elim : ∀ (xs : List (Option Link)) (ys : List Link),
    validateLinks xs = Except.ok ys → xs = ys.map some := by
  intro xs
  induction xs with
  | nil =>
    intro ys h
    simp only [validateLinks] at h
    injection h with h
    subst h
    rfl
  | cons x xs ih =>
    intro ys h
    cases x with
    | none => simp [validateLinks] at h
    | some l =>
      simp only [validateLinks] at h
      cases hx : validateLinks xs with
      | error e => rw [hx] at h; simp at h
      | ok ls =>
        rw [hx] at h
        simp only [] at h
        injection h with h
        subst h
        simp [ih ls hx]

/-- Anatomy of a successful `browsable_catalog` run: items present, all
three link stages succeeded, and the result's links and description are
determined by them. -/
theorem browsable_catalog_ok (node : CatalogNode) (p b : PyStr) (cat : Catalog)
    (h : browsable_catalog node p b = Except.ok cat) :
    ∃ its clinks ilinks self_href,
      node.items = some its ∧
      exceptList (node.children.map fun child => browsable_child_link child b) =
        Except.ok clinks ∧
      exceptList (its.map fun item => browsable_item_link item b) = Except.ok ilinks ∧
      urljoin b ("/catalogs/".data ++ pyStrip p '/') = Except.ok self_href ∧
      cat.links.map some = clinks ++ ilinks.map some ++
        [some ⟨relRoot, mimeJson, none, b⟩, some ⟨relSelf, mimeJson, none, self_href⟩] ∧
      cat.description = pyOrStr node.description
        ("Generated description for ".data ++ node.catalog_id) := by
  unfold browsable_catalog at h
  cases h1 : exceptList (node.children.map fun child => browsable_child_link child b) with
  | error e => rw [h1] at h; simp [Except.instMonad, Except.bind] at h
  | ok clinks =>
  rw [h1] at h
  simp only [Except.instMonad, Except.bind] at h
  cases hits : node.items with
  | none => rw [hits] at h; simp [Except.instMonad, Except.bind] at h
  | some its =>
  rw [hits] at h
  simp only [Except.instMonad, Except.bind] at h
  cases h2 : exceptList (its.map fun item => browsable_item_link item b) with
  | error e => rw [h2] at h; simp [Except.instMonad, Except.bind] at h
  | ok ilinks =>
  rw [h2] at h
  simp only [Except.instMonad, Except.bind] at h
  cases h3 : urljoin b ("/catalogs/".data ++ pyStrip p '/') with
  | error e => rw [h3] at h; simp [Except.instMonad, Except.bind] at h
  | ok self_href =>
  rw [h3] at h
  simp only [Except.instMonad, Except.bind] at h
  cases h4 : validateLinks (clinks ++ ilinks.map some ++
      [some ⟨relRoot, mimeJson, none, b⟩, some ⟨relSelf, mimeJson, none, self_href⟩]) with
  | error e => rw [h4] at h; simp [Except.instMonad, Except.bind] at h
  | ok links =>
  rw [h4] at h
  simp only [Except.instMonad, Except.bind] at h
  injection h with h
  refine ⟨its, clinks, ilinks, self_href, rfl, rfl, h2, rfl, ?_, ?_⟩
  · rw [← h]
    exact (validateLinks_ok_elim _ _ h4).symm
  · rw [← h]

/-- Mapping `some` over a list is injective. -/
theorem map_some_injective {α : Type} (l1 l2 : List α)
    (h : l1.map some = l2.map some) : l1 = l2 := by
  induction l1 generalizing l2 with
  | nil => cases l2 <;> simp_all
  | cons a l1 ih =>
    cases l2 with
    | nil => simp_all
    | cons b l2 =>
      simp only [List.map_cons, List.cons.injEq] at h
      obtain ⟨h1, h2⟩ := h
      injection h1 with h1
      rw [h1, ih l2 h2]

/-- C7 (amended): whenever `browsable_catalog` returns a catalog, its
description is the node's description when that is present and non-empty,
and otherwise (missing, `None`, or present but empty — Python `or` tests
truthiness) the generated default string. -/
theorem c7_catalog_description (node : CatalogNode) (catalog_path base_url : PyStr)
    (cat : Catalog) (h : browsable_catalog node catalog_path base_url = Except.ok cat) :
    (∀ s, node.description = some s → s ≠ [] → cat.description = s) ∧
    ((node.description = none ∨ node.description = some []) →
      cat.description = "Generated description for ".data ++ node.catalog_id) := by
  obtain ⟨its, clinks, ilinks, self_href, _, _, _, _, _, hdesc⟩ :=
    browsable_catalog_ok node catalog_path base_url cat h
  constructor
  · intro s hs hne
    rw [hdesc, hs]
    simp [pyOrStr, hne]
  · intro hcase
    rcases hcase with hn | he
    · rw [hdesc, hn]
      simp [pyOrStr]
    · rw [hdesc, he]
      simp [pyOrStr]

/-- Witness for C7: a present non-empty description is returned as is. -/
theorem c7_witness :
    (Catalog.mk "Catalog".data "k".data "d".data STAC_VERSION
      [⟨relRoot, mimeJson, none, "http://example.com/".data⟩,
       ⟨relSelf, mimeJson, none, "http://example.com/catalogs/p".data⟩]).description =
      "d".data :=
  (c7_catalog_description ⟨"k".data, none, some "d".data, [], some []⟩ "p".data
      "http://example.com/".data _ rfl).1 "d".data rfl (by decide)

/-- Counterexample for C7 as stated: a present but empty description is
replaced by the generated default, because Python `or` tests truthiness
rather than presence. -/
theorem c7_counterexample :
    browsable_catalog ⟨"x".data, none, some "".data, [], some []⟩ "p".data
        "http://example.com/".data =
      Except.ok ⟨"Catalog".data, "x".data, "Generated description for x".data, STAC_VERSION,
        [⟨relRoot, mimeJson, none, "http://example.com/".data⟩,
         ⟨relSelf, mimeJson, none, "http://example.com/catalogs/p".data⟩]⟩ ∧
    "Generated description for x".data ≠ "".data :=
  ⟨rfl, by decide⟩

/-- C2 (amended): for a catalog node all of whose children carry a
`catalog_id` key (a collection child raises, see C1), with an items list
of length n, whenever `browsable_catalog` returns a catalog its links are
exactly: one child link per child in child order, then one item link per
item in item order, then the root link (href the base URL verbatim), then
the self link — m + n + 2 links in all. -/
theorem c2_browsable_catalog_links (node : CatalogNode) (catalog_path base_url : PyStr)
    (its : List ItemPath) (cat : Catalog)
    (hitems : node.items = some its)
    (hch : ∀ child ∈ node.children, nodeHasKey child "catalog_id" = true)
    (h : browsable_catalog node catalog_path base_url = Except.ok cat) :
    cat.links.length = node.children.length + its.length + 2 ∧
    node.children.map (fun child => browsable_child_link child base_url) =
      (cat.links.take node.children.length).map (fun l => Except.ok (some l)) ∧
    its.map (fun item => browsable_item_link item base_url) =
      ((cat.links.drop node.children.length).take its.length).map Except.ok ∧
    ∃ self_href,
      urljoin base_url ("/catalogs/".data ++ pyStrip catalog_path '/') =
        Except.ok self_href ∧
      cat.links.drop (node.children.length + its.length) =
        [⟨relRoot, mimeJson, none, base_url⟩,
         ⟨relSelf, mimeJson, none, self_href⟩] := by
  obtain ⟨its', clinks, ilinks, self_href, hits', h1, h2, h3, hlinks, _⟩ :=
    browsable_catalog_ok node catalog_path base_url cat h
  rw [hitems] at hits'
  injection hits' with hits'
  subst hits'
  have e1 := exceptList_ok_elim _ _ h1
  have e2 := exceptList_ok_elim _ _ h2
  have hm : clinks.length = node.children.length := by
    have := congrArg List.length e1
    simpa using this.symm
  have hn : ilinks.length = its.length := by
    have := congrArg List.length e2
    simpa using this.symm
  have hlen : cat.links.length = clinks.length + ilinks.length + 2 := by
    have := congrArg List.length hlinks
    simpa using this
  have htake : (cat.links.map some).take node.children.length = clinks := by
    rw [hlinks, List.append_assoc]
    exact List.take_left' hm
  have hdrop : (cat.links.map some).drop node.children.length =
      ilinks.map some ++ [some ⟨relRoot, mimeJson, none, base_url⟩,
        some ⟨relSelf, mimeJson, none, self_href⟩] := by
    rw [hlinks, List.append_assoc]
    exact List.drop_left' hm
  refine ⟨by omega, ?_, ?_, self_href, h3, ?_⟩
  · rw [e1]
    have hx : (cat.links.take node.children.length).map some = clinks := by
      rw [List.map_take, htake]
    rw [← hx]
    simp only [List.map_map]
    rfl
  · rw [e2]
    have hx : ((cat.links.drop node.children.length).take its.length).map some =
        ilinks.map some := by
      rw [List.map_take, List.map_drop, hdrop, ← hn]
      exact List.take_left' (by simp)
    have hy := map_some_injective _ _ hx
    rw [hy]
  · have hx : (cat.links.map some).drop (node.children.length + its.length) =
        [some ⟨relRoot, mimeJson, none, base_url⟩,
         some ⟨relSelf, mimeJson, none, self_href⟩] := by
      rw [hlinks]
      exact List.drop_left' (by simp [hm, hn])
    rw [← List.map_drop] at hx
    exact map_some_injective _ _ hx

/-- Witness for C2 at a catalog with one catalog child and one item. -/
theorem c2_witness :
    (Catalog.mk "Catalog".data "k".data "d".data STAC_VERSION
      [⟨relChild, mimeJson, some "a".data, "http://example.com/a".data⟩,
       ⟨relItem, mimeJson, none, "http://example.com/collections/c/items/i".data⟩,
       ⟨relRoot, mimeJson, none, "http://example.com/".data⟩,
       ⟨relSelf, mimeJson, none, "http://example.com/catalogs/p".data⟩]).links.length =
      1 + 1 + 2 :=
  (c2_browsable_catalog_links
    ⟨"k".data, none, some "d".data, [.catalog "a".data [] none none none],
      some [("c".data, "i".data)]⟩
    "p".data "http://example.com/".data [("c".data, "i".data)] _ rfl
    (by decide) rfl).1

/-- Counterexample for C2 as stated: a catalog node with a collection
child does not return a catalog at all — the collection child link raises
(see C1). -/
theorem c2_counterexample :
    browsable_catalog ⟨"k".data, none, none, [.collection "c".data [] (some [])], some []⟩
      "p".data "http://example.com/".data =
      Except.error
        "TypeError: urljoin() missing 1 required positional argument: url".data := rfl

/-- A character in the strip of a string was in the string. -/
theorem mem_of_mem_dropWhile (p : Char → Bool) (l : PyStr) (a : Char)
    (h : a ∈ l.dropWhile p) : a ∈ l := by
  induction l with
  | nil => simpa using h
  | cons x l ih =>
    rw [List.dropWhile_cons] at h
    by_cases hx : p x = true
    · rw [if_pos hx] at h
      exact List.mem_cons_of_mem x (ih h)
    · rw [if_neg hx] at h
      exact h

/-- A character of `pyStrip s c` is a character of `s`. -/
theorem mem_pyStrip (s : PyStr) (c a : Char) (h : a ∈ pyStrip s c) : a ∈ s := by
  unfold pyStrip at h
  rw [List.mem_reverse] at h
  have h2 := mem_of_mem_dropWhile _ _ _ h
  rw [List.mem_reverse] at h2
  exact mem_of_mem_dropWhile _ _ _ h2

/-- `dropWhile` is the identity when no element satisfies the predicate
(only the head matters). -/
theorem dropWhile_eq_self (p : Char → Bool) (l : PyStr)
    (h : ∀ c ∈ l, p c = false) : l.dropWhile p = l := by
  cases l with
  | nil => rfl
  | cons a l => rw [List.dropWhile_cons, h a (List.mem_cons_self a l)]; rfl

/-- `stripC0` is the identity on strings of characters above 0x20. -/
theorem stripC0_eq_self (s : PyStr) (h : ∀ c ∈ s, 32 < c.toNat) : stripC0 s = s := by
  unfold stripC0
  have hp : ∀ c ∈ s, isC0OrSpace c = false := by
    intro c hc
    simp only [isC0OrSpace, decide_eq_false_iff_not, not_le]
    exact h c hc
  rw [dropWhile_eq_self _ s hp]
  rw [dropWhile_eq_self _ s.reverse (fun c hc => hp c (List.mem_reverse.mp hc))]
  exact List.reverse_reverse s

/-- `removeUnsafe` is the identity on strings of characters above 0x20. -/
theorem removeUnsafe_eq_self (s : PyStr) (h : ∀ c ∈ s, 32 < c.toNat) :
    removeUnsafe s = s := by
  unfold removeUnsafe
  apply List.filter_eq_self.mpr
  intro a ha
  have hgt := h a ha
  simp only [decide_eq_true_eq]
  refine ⟨?_, ?_, ?_⟩ <;> intro e <;> rw [e] at hgt <;> exact absurd hgt (by decide)

/-- `findIdx?` finds nothing when no element satisfies the predicate, for
any start index. -/
theorem findIdx?_eq_none_aux (p : Char → Bool) : ∀ (l : PyStr) (i : Nat),
    (∀ c ∈ l, p c = false) → List.findIdx? p l i = none := by
  intro l
  induction l with
  | nil => intro i _; rfl
  | cons a l ih =>
    intro i h
    rw [List.findIdx?_cons, h a (List.mem_cons_self a l)]
    simp only [Bool.false_eq_true, if_false]
    exact ih (i + 1) (fun c hc => h c (List.mem_cons_of_mem a hc))

/-- `findIdx?` with default start, no-hit version. -/
theorem findIdx?_eq_none (p : Char → Bool) (l : PyStr)
    (h : ∀ c ∈ l, p c = false) : l.findIdx? p = none :=
  findIdx?_eq_none_aux p l 0 h

/-- `splitOnChar` never returns the empty list. -/
theorem splitOnChar_ne_nil (s : PyStr) (c : Char) : splitOnChar s c ≠ [] := by
  cases s with
  | nil => simp [splitOnChar]
  | cons a l =>
    simp only [splitOnChar]
    by_cases hac : a = c
    · rw [if_pos hac]; simp
    · rw [if_neg hac]
      cases h : splitOnChar l c <;> simp

/-- Splitting a string that avoids the separator gives one piece. -/
theorem splitOnChar_not_mem (s : PyStr) (c : Char) (h : c ∉ s) :
    splitOnChar s c = [s] := by
  induction s with
  | nil => rfl
  | cons a l ih =>
    simp only [List.mem_cons, not_or] at h
    obtain ⟨h1, h2⟩ := h
    simp only [splitOnChar]
    rw [if_neg (fun e => h1 e.symm), ih h2]

/-- Splitting across a separator occurrence whose left part avoids the
separator. -/
theorem splitOnChar_append (xs ys : PyStr) (c : Char) (h : c ∉ xs) :
    splitOnChar (xs ++ c :: ys) c = xs :: splitOnChar ys c := by
  induction xs with
  | nil => simp [splitOnChar]
  | cons a l ih =>
    simp only [List.mem_cons, not_or] at h
    obtain ⟨h1, h2⟩ := h
    simp only [List.cons_append, splitOnChar]
    rw [if_neg (fun e => h1 e.symm),
      show l.append (c :: ys) = l ++ c :: ys from rfl, ih h2]

/-- A character of a piece of a split was in the split string. -/
theorem mem_of_mem_splitOnChar (s : PyStr) (c : Char) :
    ∀ seg ∈ splitOnChar s c, ∀ a ∈ seg, a ∈ s := by
  induction s with
  | nil =>
    intro seg hseg a ha
    simp only [splitOnChar, List.mem_singleton] at hseg
    subst hseg
    simp at ha
  | cons x l ih =>
    intro seg hseg a ha
    simp only [splitOnChar] at hseg
    by_cases hx : x = c
    · rw [if_pos hx] at hseg
      rcases List.mem_cons.mp hseg with h | h
      · subst h; simp at ha
      · exact List.mem_cons_of_mem x (ih seg h a ha)
    · rw [if_neg hx] at hseg
      cases hsp : splitOnChar l c with
      | nil => exact absurd hsp (splitOnChar_ne_nil l c)
      | cons s0 ss =>
        rw [hsp] at hseg
        rcases List.mem_cons.mp hseg with h | h
        · subst h
          rcases List.mem_cons.mp ha with h | h
          · subst h; exact List.mem_cons_self a l
          · have hs0 : s0 ∈ splitOnChar l c := by rw [hsp]; exact List.mem_cons_self s0 ss
            exact List.mem_cons_of_mem x (ih s0 hs0 a h)
        · have hss : seg ∈ splitOnChar l c := by
            rw [hsp]; exact List.mem_cons_of_mem s0 h
          exact List.mem_cons_of_mem x (ih seg hss a ha)

/-- `joinChar` on a list of two or more pieces. -/
theorem joinChar_cons_cons (x y : PyStr) (t : List PyStr) (c : Char) :
    joinChar (x :: y :: t) c = x ++ c :: joinChar (y :: t) c := rfl

/-- Joining a split is the identity. -/
theorem joinChar_splitOnChar (s : PyStr) (c : Char) :
    joinChar (splitOnChar s c) c = s := by
  induction s with
  | nil => rfl
  | cons a l ih =>
    simp only [splitOnChar]
    by_cases hac : a = c
    · rw [if_pos hac]
      cases hsp : splitOnChar l c with
      | nil => exact absurd hsp (splitOnChar_ne_nil l c)
      | cons s0 ss =>
        rw [joinChar_cons_cons]
        simp only [List.nil_append]
        rw [← hsp, ih, hac]
    · rw [if_neg hac]
      cases hsp : splitOnChar l c with
      | nil => exact absurd hsp (splitOnChar_ne_nil l c)
      | cons s0 ss =>
        cases ss with
        | nil =>
          have hj : joinChar (splitOnChar l c) c = l := ih
          rw [hsp] at hj
          simp only [joinChar] at hj ⊢
          rw [hj]
        | cons s1 ss' =>
          rw [joinChar_cons_cons]
          have hj : joinChar (splitOnChar l c) c = l := ih
          rw [hsp, joinChar_cons_cons] at hj
          rw [← hj]
          simp

/-- `joinChar` distributes over an append of nonempty piece lists. -/
theorem joinChar_append (A B : List PyStr) (c : Char) (hA : A ≠ []) (hB : B ≠ []) :
    joinChar (A ++ B) c = joinChar A c ++ c :: joinChar B c := by
  induction A with
  | nil => contradiction
  | cons x A ih =>
    cases A with
    | nil =>
      cases B with
      | nil => contradiction
      | cons b bs =>
        rw [List.singleton_append, joinChar_cons_cons]
        rfl
    | cons y A' =>
      have e1 : (x :: y :: A') ++ B = x :: ((y :: A') ++ B) := rfl
      rw [e1]
      have e2 : (y :: A') ++ B = y :: (A' ++ B) := rfl
      rw [e2, joinChar_cons_cons, ← e2, ih (by simp), joinChar_cons_cons]
      simp

/-- The dot-segment resolution loop appends dot-free segments as they
are. -/
theorem foldl_resolveStep_no_dots : ∀ (B : List PyStr),
    (∀ seg ∈ B, seg ≠ ['.'] ∧ seg ≠ ['.', '.']) →
    ∀ acc, B.foldl resolveStep acc = acc ++ B := by
  intro B
  induction B with
  | nil => intro _ acc; simp
  | cons s B ih =>
    intro hB acc
    simp only [List.foldl_cons]
    have hs := hB s (List.mem_cons_self s B)
    have hstep : resolveStep acc s = acc ++ [s] := by
      simp [resolveStep, hs.1, hs.2]
    rw [hstep, ih (fun seg h => hB seg (List.mem_cons_of_mem s h)) (acc ++ [s])]
    simp

/-- `resolveSegs` is the identity on dot-free segment lists. -/
theorem resolveSegs_no_dots (B : List PyStr)
    (hB : ∀ seg ∈ B, seg ≠ ['.'] ∧ seg ≠ ['.', '.']) : resolveSegs B = B := by
  unfold resolveSegs
  rw [foldl_resolveStep_no_dots B hB []]
  rfl

/-- `resolveSegs` over an append with a dot-free right part. -/
theorem resolveSegs_append_no_dots (A B : List PyStr)
    (hB : ∀ seg ∈ B, seg ≠ ['.'] ∧ seg ≠ ['.', '.']) :
    resolveSegs (A ++ B) = resolveSegs A ++ B := by
  unfold resolveSegs
  rw [List.foldl_append]
  exact foldl_resolveStep_no_dots B hB _

/-- `dropLast` of a cons-append with explicit last element. -/
theorem dropLast_cons_append : ∀ (ms : List PyStr) (m z : PyStr),
    (m :: (ms ++ [z])).dropLast = m :: ms := by
  intro ms
  induction ms with
  | nil => intro m z; rfl
  | cons a ms ih =>
    intro m z
    show (m :: a :: (ms ++ [z])).dropLast = m :: a :: ms
    rw [List.dropLast_cons₂, ih a z]

/-- `getLastD` of a cons-append with explicit last element. -/
theorem getLastD_cons_append : ∀ (ms : List PyStr) (m z d : PyStr),
    (m :: (ms ++ [z])).getLastD d = z := by
  intro ms
  induction ms with
  | nil => intro m z d; rfl
  | cons a ms ih =>
    intro m z d
    rw [List.getLastD_cons]
    exact ih a z m

/-- Shape of the interior filter on a list with explicit first and last
elements. -/
theorem filterInterior_shape (x : PyStr) (mid : List PyStr) (z : PyStr) :
    filterInterior (x :: (mid ++ [z])) =
      x :: (mid.filter (fun s => decide (s ≠ [])) ++ [z]) := by
  cases mid with
  | nil => simp [filterInterior]
  | cons m ms =>
    show filterInterior (x :: (m :: (ms ++ [z]))) = _
    simp only [filterInterior]
    rw [dropLast_cons_append, getLastD_cons_append]
    simp

/-- `getLastD` of a list with a last element. -/
theorem getLastD_concat (l : List PyStr) (x d : PyStr) :
    (l ++ [x]).getLastD d = x := by simp

/-- The `getLastD` of a nonempty list is a member. -/
theorem getLastD_mem : ∀ (l : List PyStr), l ≠ [] → ∀ d, l.getLastD d ∈ l := by
  intro l
  induction l with
  | nil => intro h; contradiction
  | cons a l ih =>
    intro _ d
    cases l with
    | nil => simp
    | cons b l' =>
      rw [List.getLastD_cons]
      exact List.mem_cons_of_mem a (ih (by simp) a)

/-- A plain character differs from any non-plain character. -/
theorem plainChar_ne (c : Char) (h : plainChar c) (d : Char) (hd : ¬ plainChar d) :
    c ≠ d := by
  intro e
  exact hd (e ▸ h)

/-- Plain characters sit above the C0/space range. -/
theorem plainChar_gt32 (c : Char) (h : plainChar c) : 32 < c.toNat := by
  rcases h with ⟨h1, h2⟩ | ⟨h1, h2⟩ | ⟨h1, h2⟩ | h | h
  · omega
  · omega
  · omega
  · subst h; decide
  · subst h; decide

/-- The self-link path as an explicit character list. -/
theorem catalogs_append (s : PyStr) :
    "/catalogs/".data ++ s =
      '/' :: ('c' :: 'a' :: 't' :: 'a' :: 'l' :: 'o' :: 'g' :: 's' :: '/' :: s) := rfl

/-- The item-link path as an explicit character list. -/
theorem collections_append (s : PyStr) :
    "collections/".data ++ s =
      'c' :: 'o' :: 'l' :: 'l' :: 'e' :: 'c' :: 't' :: 'i' :: 'o' :: 'n' :: 's' :: '/' :: s := rfl

/-- No scheme is detected when the URL does not start with a letter. -/
theorem schemeSplit_head_not_alpha (a : Char) (l : PyStr) (h : a.isAlpha = false) :
    schemeSplit (a :: l) = none := by
  unfold schemeSplit
  split
  · rw [if_neg]
    intro hcond
    have halpha := hcond.2.1
    rw [List.headD_cons, h] at halpha
    exact Bool.false_ne_true halpha
  · rfl

/-- No scheme is detected when the URL has no colon. -/
theorem schemeSplit_no_colon (l : PyStr) (h : ':' ∉ l) : schemeSplit l = none := by
  unfold schemeSplit
  rw [findIdx?_eq_none _ l (fun c hc => by
    simp only [decide_eq_false_iff_not]
    intro e
    exact h (e ▸ hc))]

/-- Fragment/query extraction is trivial on a string with neither
delimiter. -/
theorem splitFragmentQuery_plain (u : PyStr) (h1 : '#' ∉ u) (h2 : '?' ∉ u) :
    splitFragmentQuery u = (u, [], []) := by
  unfold splitFragmentQuery
  rw [if_neg h1]
  simp only []
  rw [if_neg h2]

/-- `urlsplitRest` on a netloc-free, fragment-free, query-free rest. -/
theorem urlsplitRest_plain (scheme rest : PyStr) (htake : rest.take 2 ≠ ['/', '/'])
    (h1 : '#' ∉ rest) (h2 : '?' ∉ rest) :
    urlsplitRest scheme rest = Except.ok ⟨scheme, [], rest, [], []⟩ := by
  unfold urlsplitRest
  rw [if_neg htake, splitFragmentQuery_plain rest h1 h2]

/-- `urlsplit` on a clean, schemeless, netloc-free URL. -/
theorem urlsplit_plain (url dscheme : PyStr)
    (hclean : removeUnsafe (lstripC0 url) = url)
    (hscheme : schemeSplit url = none)
    (htake : url.take 2 ≠ ['/', '/'])
    (h1 : '#' ∉ url) (h2 : '?' ∉ url) :
    urlsplit url dscheme =
      Except.ok ⟨removeUnsafe (stripC0 dscheme), [], url, [], []⟩ := by
  unfold urlsplit
  simp only [hclean, hscheme]
  exact urlsplitRest_plain _ url htake h1 h2

/-- `urlparse` on a clean, schemeless, netloc-free URL without
semicolons. -/
theorem urlparse_plain (url dscheme : PyStr)
    (hclean : removeUnsafe (lstripC0 url) = url)
    (hscheme : schemeSplit url = none)
    (htake : url.take 2 ≠ ['/', '/'])
    (h1 : '#' ∉ url) (h2 : '?' ∉ url) (h3 : ';' ∉ url) :
    urlparse url dscheme =
      Except.ok ⟨removeUnsafe (stripC0 dscheme), [], url, [], [], []⟩ := by
  unfold urlparse
  rw [urlsplit_plain url dscheme hclean hscheme htake h1 h2]
  simp only [Except.instMonad, Except.bind]
  rw [if_neg (fun hx => h3 hx.2)]

/-- The scheme of a successful `urlsplitRest` is its argument. -/
theorem urlsplitRest_ok_scheme (scheme rest : PyStr) (r : SplitResult)
    (h : urlsplitRest scheme rest = Except.ok r) : r.scheme = scheme := by
  unfold urlsplitRest at h
  simp only [] at h
  split at h
  · split at h
    · exact Except.noConfusion h
    · split at h
      · exact Except.noConfusion h
      · split at h
        · exact Except.noConfusion h
        · injection h with h
          rw [← h]
  · injection h with h
    rw [← h]

/-- A scheme detected by `schemeSplit` is made of `scheme_chars`. -/
theorem schemeSplit_some_chars (url : PyStr) (p : PyStr × PyStr)
    (h : schemeSplit url = some p) : ∀ c ∈ p.1, c ∈ scheme_chars := by
  unfold schemeSplit at h
  split at h
  · split at h
    · next hc =>
      injection h with h
      subst h
      intro c hcmem
      obtain ⟨c0, hc0, rfl⟩ := List.mem_map.mp hcmem
      have hall := hc.2.2
      rw [List.all_eq_true] at hall
      have hc0s := hall c0 hc0
      simp only [decide_eq_true_eq] at hc0s
      have hlow : ∀ c ∈ scheme_chars, Char.toLower c ∈ scheme_chars := by decide
      exact hlow c0 hc0s
    · exact Option.noConfusion h
  · exact Option.noConfusion h

/-- The scheme produced by parsing a base URL with empty default scheme is
already clean (stripping and unsafe-byte removal fix it). -/
theorem urlsplit_ok_base_scheme (base : PyStr) (r : SplitResult)
    (h : urlsplit base [] = Except.ok r) :
    removeUnsafe (stripC0 r.scheme) = r.scheme := by
  unfold urlsplit at h
  simp only [] at h
  cases hs : schemeSplit (removeUnsafe (lstripC0 base)) with
  | none =>
    rw [hs] at h
    have hsch := urlsplitRest_ok_scheme _ _ _ h
    rw [hsch]
    rfl
  | some p =>
    rw [hs] at h
    have hsch := urlsplitRest_ok_scheme _ _ _ h
    have hchars := schemeSplit_some_chars _ _ hs
    have hgt : ∀ c ∈ p.1, 32 < c.toNat := by
      intro c hc
      have hsc : ∀ c ∈ scheme_chars, 32 < c.toNat := by decide
      exact hsc c (hchars c hc)
    rw [hsch, stripC0_eq_self p.1 hgt, removeUnsafe_eq_self p.1 hgt]

/-- A successful `urlparse` comes from a successful `urlsplit` with the
same scheme and netloc. -/
theorem urlparse_ok (url d : PyStr) (pr : ParseResult)
    (h : urlparse url d = Except.ok pr) :
    ∃ s : SplitResult, urlsplit url d = Except.ok s ∧
      pr.scheme = s.scheme ∧ pr.netloc = s.netloc := by
  unfold urlparse at h
  cases hs : urlsplit url d with
  | error e => rw [hs] at h; exact Except.noConfusion h
  | ok s =>
    rw [hs] at h
    simp only [Except.instMonad, Except.bind] at h
    refine ⟨s, rfl, ?_, ?_⟩ <;>
      (split at h <;> (injection h with h; rw [← h]))

/-- Scheme cleanliness at the `urlparse` level. -/
theorem urlparse_base_scheme_clean (base : PyStr) (bp : ParseResult)
    (h : urlparse base [] = Except.ok bp) :
    removeUnsafe (stripC0 bp.scheme) = bp.scheme := by
  obtain ⟨s, hs, hsc, _⟩ := urlparse_ok base [] bp h
  rw [hsc]
  exact urlsplit_ok_base_scheme base s hs

/-- `urlunsplit` with empty query and fragment only prepends to the
path. -/
theorem urlunsplit_append (scheme netloc url : PyStr) :
    ∃ pre, urlunsplit scheme netloc url [] [] = pre ++ url := by
  unfold urlunsplit
  rw [if_neg (fun hx : ([] : PyStr) ≠ [] => hx rfl),
    if_neg (fun hx : ([] : PyStr) ≠ [] => hx rfl)]
  by_cases h1 : netloc ≠ [] ∨ (scheme ≠ [] ∧ scheme ∈ uses_netloc ∧ url.take 2 ≠ ['/', '/'])
  · rw [if_pos h1]
    by_cases h2 : url ≠ [] ∧ url.take 1 ≠ ['/']
    · rw [if_pos h2]
      by_cases h3 : scheme ≠ []
      · rw [if_pos h3]
        exact ⟨scheme ++ ':' :: '/' :: '/' :: (netloc ++ ['/']), by simp⟩
      · rw [if_neg h3]
        exact ⟨'/' :: '/' :: (netloc ++ ['/']), by simp⟩
    · rw [if_neg h2]
      by_cases h3 : scheme ≠ []
      · rw [if_pos h3]
        exact ⟨scheme ++ ':' :: '/' :: '/' :: netloc, by simp⟩
      · rw [if_neg h3]
        exact ⟨'/' :: '/' :: netloc, by simp⟩
  · rw [if_neg h1]
    by_cases h3 : scheme ≠ []
    · rw [if_pos h3]
      exact ⟨scheme ++ [':'], by simp⟩
    · rw [if_neg h3]
      exact ⟨[], rfl⟩

/-- `urlunparse` with empty params, query and fragment only prepends to
the path. -/
theorem urlunparse_no_params (sch nl path : PyStr) :
    ∃ pre, urlunparse ⟨sch, nl, path, [], [], []⟩ = pre ++ path := by
  unfold urlunparse
  simp only []
  rw [if_neg (fun hx : ([] : PyStr) ≠ [] => hx rfl)]
  exact urlunsplit_append sch nl path

/-- Resolving `/catalogs/{s}` against any base URL: when `s` has no
fragment/query/params delimiters, no control characters and no dot
segments, a successful `urljoin` only prepends to the absolute path, so
the result ends with `/catalogs/{s}`. -/
theorem urljoin_catalogs_suffix (base s r : PyStr)
    (hs : ∀ c ∈ s, 32 < c.toNat ∧ c ≠ '#' ∧ c ≠ '?' ∧ c ≠ ';')
    (hseg : ∀ seg ∈ splitOnChar s '/', seg ≠ ['.'] ∧ seg ≠ ['.', '.'])
    (h : urljoin base ("/catalogs/".data ++ s) = Except.ok r) :
    ("/catalogs/".data ++ s) <:+ r := by
  by_cases hb : base = []
  · rw [hb] at h
    unfold urljoin at h
    rw [if_pos rfl] at h
    injection h with h
    exact h ▸ List.suffix_refl _
  · have hune : "/catalogs/".data ++ s ≠ [] := by rw [catalogs_append]; simp
    have hgt : ∀ c ∈ "/catalogs/".data ++ s, 32 < c.toNat := by
      rw [catalogs_append, show ('/' :: ('c' :: 'a' :: 't' :: 'a' :: 'l' :: 'o' :: 'g' ::
        's' :: '/' :: s) : PyStr) = ['/', 'c', 'a', 't', 'a', 'l', 'o', 'g', 's', '/'] ++ s
        from rfl]
      refine List.forall_mem_append.mpr ⟨by decide, fun c hc => (hs c hc).1⟩
    have hnh : '#' ∉ "/catalogs/".data ++ s := by
      intro hc
      rcases List.mem_append.mp hc with h1 | h2
      · revert h1; decide
      · exact (hs _ h2).2.1 rfl
    have hnq : '?' ∉ "/catalogs/".data ++ s := by
      intro hc
      rcases List.mem_append.mp hc with h1 | h2
      · revert h1; decide
      · exact (hs _ h2).2.2.1 rfl
    have hnsemi : ';' ∉ "/catalogs/".data ++ s := by
      intro hc
      rcases List.mem_append.mp hc with h1 | h2
      · revert h1; decide
      · exact (hs _ h2).2.2.2 rfl
    have hclean : removeUnsafe (lstripC0 ("/catalogs/".data ++ s)) =
        "/catalogs/".data ++ s := by
      have hl : lstripC0 ("/catalogs/".data ++ s) = "/catalogs/".data ++ s := by
        rw [catalogs_append, lstripC0, List.dropWhile_cons, if_neg (by decide)]
      rw [hl]
      exact removeUnsafe_eq_self _ hgt
    have hscheme : schemeSplit ("/catalogs/".data ++ s) = none := by
      rw [catalogs_append]
      exact schemeSplit_head_not_alpha '/' _ (by decide)
    have htake2 : ("/catalogs/".data ++ s).take 2 ≠ ['/', '/'] := by
      rw [catalogs_append, show List.take 2 ('/' :: ('c' :: 'a' :: 't' :: 'a' :: 'l' ::
        'o' :: 'g' :: 's' :: '/' :: s)) = ['/', 'c'] from rfl]
      decide
    unfold urljoin at h
    rw [if_neg hb, if_neg hune] at h
    cases hbp : urlparse base [] with
    | error e =>
      rw [hbp] at h
      simp [Except.instMonad, Except.bind] at h
    | ok bp =>
      rw [hbp] at h
      simp only [Except.instMonad, Except.bind] at h
      have hup : urlparse ("/catalogs/".data ++ s) bp.scheme =
          Except.ok ⟨bp.scheme, [], "/catalogs/".data ++ s, [], [], []⟩ := by
        rw [urlparse_plain _ bp.scheme hclean hscheme htake2 hnh hnq hnsemi,
          urlparse_base_scheme_clean base bp hbp]
      rw [hup] at h
      simp only [Except.instMonad, Except.bind] at h
      by_cases hrel : bp.scheme ∈ uses_relative
      · rw [if_neg (by simp [hrel])] at h
        rw [if_neg (by simp)] at h
        rw [if_neg (fun hx => hune hx.1)] at h
        rw [if_pos (show ("/catalogs/".data ++ s).take 1 = ['/'] from by
          rw [catalogs_append]; rfl)] at h
        have hnodots : ∀ seg ∈ splitOnChar ("/catalogs/".data ++ s) '/',
            seg ≠ ['.'] ∧ seg ≠ ['.', '.'] := by
          rw [show "/catalogs/".data ++ s = '/' :: ("catalogs".data ++ '/' :: s) from rfl,
            show splitOnChar ('/' :: ("catalogs".data ++ '/' :: s)) '/' =
              [] :: splitOnChar ("catalogs".data ++ '/' :: s) '/' from by
                simp [splitOnChar],
            splitOnChar_append "catalogs".data s '/' (by decide)]
          intro seg hm
          rcases List.mem_cons.mp hm with rfl | hm
          · exact ⟨by decide, by decide⟩
          rcases List.mem_cons.mp hm with rfl | hm
          · exact ⟨by decide, by decide⟩
          · exact hseg seg hm
        have hlast : ¬ ((splitOnChar ("/catalogs/".data ++ s) '/').getLastD [] = ['.'] ∨
            (splitOnChar ("/catalogs/".data ++ s) '/').getLastD [] = ['.', '.']) := by
          have hmem := getLastD_mem _ (splitOnChar_ne_nil ("/catalogs/".data ++ s) '/') []
          have hd := hnodots _ hmem
          rintro (hx | hx)
          · exact hd.1 hx
          · exact hd.2 hx
        rw [resolveSegs_no_dots _ hnodots, if_neg hlast, joinChar_splitOnChar,
          if_neg hune] at h
        obtain ⟨pre, hpre⟩ := urlunparse_no_params bp.scheme
          (if bp.scheme ∈ uses_netloc then bp.netloc else []) ("/catalogs/".data ++ s)
        rw [hpre] at h
        injection h with h
        exact ⟨pre, h⟩
      · rw [if_pos (Or.inr hrel)] at h
        injection h with h
        exact h ▸ List.suffix_refl _

/-- Resolving `collections/{ci}/items/{ii}` against any base URL: when the
two ids are nonempty and free of separators, delimiters, dots and control
characters, a successful `urljoin` keeps the four path segments intact, so
the result contains `collections/{ci}/items/{ii}` as a substring. -/
theorem urljoin_collections_infix (base ci ii r : PyStr)
    (hc1 : ci ≠ [])
    (hc2 : ∀ c ∈ ci, 32 < c.toNat ∧ c ≠ '#' ∧ c ≠ '?' ∧ c ≠ ';' ∧ c ≠ ':' ∧
      c ≠ '/' ∧ c ≠ '.')
    (hi1 : ii ≠ [])
    (hi2 : ∀ c ∈ ii, 32 < c.toNat ∧ c ≠ '#' ∧ c ≠ '?' ∧ c ≠ ';' ∧ c ≠ ':' ∧
      c ≠ '/' ∧ c ≠ '.')
    (h : urljoin base ("collections/".data ++ ci ++ "/items/".data ++ ii) =
      Except.ok r) :
    ("collections/".data ++ ci ++ "/items/".data ++ ii) <:+: r := by
  by_cases hb : base = []
  · rw [hb] at h
    unfold urljoin at h
    rw [if_pos rfl] at h
    injection h with h
    exact h ▸ List.infix_refl _
  · have hform : "collections/".data ++ ci ++ "/items/".data ++ ii =
        ['c', 'o', 'l', 'l', 'e', 'c', 't', 'i', 'o', 'n', 's', '/'] ++
          ((ci ++ "/items/".data) ++ ii) := rfl
    have hmem3 : ∀ (P : Char → Prop), (∀ c ∈ ci, P c) → (∀ c ∈ ii, P c) →
        (∀ c ∈ (['c', 'o', 'l', 'l', 'e', 'c', 't', 'i', 'o', 'n', 's', '/'] : PyStr), P c) →
        ∀ c ∈ "collections/".data ++ ci ++ "/items/".data ++ ii,
          P c ∨ c ∈ "/items/".data := by
      intro P hci hii hlit c hc
      rw [hform] at hc
      rcases List.mem_append.mp hc with h1 | h2
      · exact Or.inl (hlit c h1)
      rcases List.mem_append.mp h2 with h3 | h4
      · rcases List.mem_append.mp h3 with h5 | h6
        · exact Or.inl (hci c h5)
        · exact Or.inr h6
      · exact Or.inl (hii c h4)
    have hune : "collections/".data ++ ci ++ "/items/".data ++ ii ≠ [] := by
      rw [hform]; simp
    have hgt : ∀ c ∈ "collections/".data ++ ci ++ "/items/".data ++ ii,
        32 < c.toNat := by
      intro c hc
      rcases hmem3 (fun c => 32 < c.toNat) (fun c hc => (hc2 c hc).1)
        (fun c hc => (hi2 c hc).1) (by decide) c hc with h1 | h2
      · exact h1
      · exact (by decide : ∀ a ∈ "/items/".data, 32 < a.toNat) c h2
    have hnh : '#' ∉ "collections/".data ++ ci ++ "/items/".data ++ ii := by
      intro hc
      rcases hmem3 (fun c => c ≠ '#') (fun c hc => (hc2 c hc).2.1)
        (fun c hc => (hi2 c hc).2.1) (by decide) _ hc with h1 | h2
      · exact h1 rfl
      · revert h2; decide
    have hnq : '?' ∉ "collections/".data ++ ci ++ "/items/".data ++ ii := by
      intro hc
      rcases hmem3 (fun c => c ≠ '?') (fun c hc => (hc2 c hc).2.2.1)
        (fun c hc => (hi2 c hc).2.2.1) (by decide) _ hc with h1 | h2
      · exact h1 rfl
      · revert h2; decide
    have hnsemi : ';' ∉ "collections/".data ++ ci ++ "/items/".data ++ ii := by
      intro hc
      rcases hmem3 (fun c => c ≠ ';') (fun c hc => (hc2 c hc).2.2.2.1)
        (fun c hc => (hi2 c hc).2.2.2.1) (by decide) _ hc with h1 | h2
      · exact h1 rfl
      · revert h2; decide
    have hncolon : ':' ∉ "collections/".data ++ ci ++ "/items/".data ++ ii := by
      intro hc
      rcases hmem3 (fun c => c ≠ ':') (fun c hc => (hc2 c hc).2.2.2.2.1)
        (fun c hc => (hi2 c hc).2.2.2.2.1) (by decide) _ hc with h1 | h2
      · exact h1 rfl
      · revert h2; decide
    have hclean : removeUnsafe (lstripC0
        ("collections/".data ++ ci ++ "/items/".data ++ ii)) =
        "collections/".data ++ ci ++ "/items/".data ++ ii := by
      have hl : lstripC0 ("collections/".data ++ ci ++ "/items/".data ++ ii) =
          "collections/".data ++ ci ++ "/items/".data ++ ii := by
        rw [show "collections/".data ++ ci ++ "/items/".data ++ ii =
          'c' :: ('o' :: 'l' :: 'l' :: 'e' :: 'c' :: 't' :: 'i' :: 'o' :: 'n' :: 's' ::
            '/' :: ((ci ++ "/items/".data) ++ ii)) from rfl]
        rw [lstripC0, List.dropWhile_cons, if_neg (by decide)]
      rw [hl]
      exact removeUnsafe_eq_self _ hgt
    have hscheme : schemeSplit
        ("collections/".data ++ ci ++ "/items/".data ++ ii) = none :=
      schemeSplit_no_colon _ hncolon
    have htake2 : ("collections/".data ++ ci ++ "/items/".data ++ ii).take 2 ≠
        ['/', '/'] := by
      rw [show ("collections/".data ++ ci ++ "/items/".data ++ ii).take 2 =
        ['c', 'o'] from rfl]
      decide
    have hsplit_url : splitOnChar
        ("collections/".data ++ ci ++ "/items/".data ++ ii) '/' =
        ["collections".data, ci, "items".data, ii] := by
      rw [show "collections/".data ++ ci ++ "/items/".data ++ ii =
        "collections".data ++ '/' :: ((ci ++ "/items/".data) ++ ii) from rfl]
      rw [splitOnChar_append "collections".data _ '/' (by decide)]
      rw [List.append_assoc]
      rw [show "/items/".data ++ ii = '/' :: ("items".data ++ '/' :: ii) from rfl]
      rw [splitOnChar_append ci _ '/' (fun hmem => (hc2 _ hmem).2.2.2.2.2.1 rfl)]
      rw [splitOnChar_append "items".data ii '/' (by decide)]
      rw [splitOnChar_not_mem ii '/' (fun hmem => (hi2 _ hmem).2.2.2.2.2.1 rfl)]
    have hlit4 : ∀ seg ∈ ["collections".data, ci, "items".data, ii],
        seg ≠ ['.'] ∧ seg ≠ ['.', '.'] := by
      intro seg hm
      rcases List.mem_cons.mp hm with rfl | hm
      · exact ⟨by decide, by decide⟩
      rcases List.mem_cons.mp hm with rfl | hm
      · constructor <;> intro e
        · exact (hc2 '.' (e ▸ List.mem_cons_self '.' [])).2.2.2.2.2.2 rfl
        · exact (hc2 '.' (e ▸ List.mem_cons_self '.' ['.'])).2.2.2.2.2.2 rfl
      rcases List.mem_cons.mp hm with rfl | hm
      · exact ⟨by decide, by decide⟩
      rcases List.mem_cons.mp hm with rfl | hm
      · constructor <;> intro e
        · exact (hi2 '.' (e ▸ List.mem_cons_self '.' [])).2.2.2.2.2.2 rfl
        · exact (hi2 '.' (e ▸ List.mem_cons_self '.' ['.'])).2.2.2.2.2.2 rfl
      · simp at hm
    unfold urljoin at h
    rw [if_neg hb, if_neg hune] at h
    cases hbp : urlparse base [] with
    | error e =>
      rw [hbp] at h
      simp [Except.instMonad, Except.bind] at h
    | ok bp =>
      rw [hbp] at h
      simp only [Except.instMonad, Except.bind] at h
      have hup : urlparse ("collections/".data ++ ci ++ "/items/".data ++ ii)
          bp.scheme = Except.ok ⟨bp.scheme, [],
            "collections/".data ++ ci ++ "/items/".data ++ ii, [], [], []⟩ := by
        rw [urlparse_plain _ bp.scheme hclean hscheme htake2 hnh hnq hnsemi,
          urlparse_base_scheme_clean base bp hbp]
      rw [hup] at h
      simp only [Except.instMonad, Except.bind] at h
      by_cases hrel : bp.scheme ∈ uses_relative
      · rw [if_neg (by simp [hrel])] at h
        rw [if_neg (by simp)] at h
        rw [if_neg (fun hx => hune hx.1)] at h
        rw [if_neg (show ¬ ("collections/".data ++ ci ++ "/items/".data ++ ii).take 1 =
            ['/'] from by
          rw [show ("collections/".data ++ ci ++ "/items/".data ++ ii).take 1 =
            ['c'] from rfl]
          decide)] at h
        rw [hsplit_url] at h
        cases hA : (if (splitOnChar bp.path '/').getLastD [] ≠ [] then
            (splitOnChar bp.path '/').dropLast else splitOnChar bp.path '/') with
        | nil =>
          rw [hA, List.nil_append] at h
          rw [show (["collections".data, ci, "items".data, ii] : List PyStr) =
            "collections".data :: ([ci, "items".data] ++ [ii]) from rfl,
            filterInterior_shape] at h
          rw [show List.filter (fun s => decide (s ≠ [])) [ci, "items".data] =
            [ci, "items".data] from by simp [hc1]] at h
          rw [getLastD_cons_append] at h
          rw [if_neg (show ¬ (ii = ['.'] ∨ ii = ['.', '.']) from by
            rintro (e | e)
            · exact (hi2 '.' (e ▸ List.mem_cons_self '.' [])).2.2.2.2.2.2 rfl
            · exact (hi2 '.' (e ▸ List.mem_cons_self '.' ['.'])).2.2.2.2.2.2 rfl)] at h
          rw [show ("collections".data :: ([ci, "items".data] ++ [ii]) : List PyStr) =
            [] ++ ["collections".data, ci, "items".data, ii] from rfl] at h
          rw [resolveSegs_append_no_dots [] _ hlit4] at h
          rw [show (resolveSegs [] ++ ["collections".data, ci, "items".data, ii] :
            List PyStr) = ["collections".data, ci, "items".data, ii] from rfl] at h
          have hjoin : joinChar ["collections".data, ci, "items".data, ii] '/' =
              "collections/".data ++ ci ++ "/items/".data ++ ii := by
            rw [show joinChar ["collections".data, ci, "items".data, ii] '/' =
              "collections".data ++ '/' :: (ci ++ '/' :: ("items".data ++ '/' :: ii))
              from rfl]
            simp only [List.append_assoc, List.cons_append, List.nil_append]
          rw [hjoin, if_neg hune] at h
          obtain ⟨pre, hpre⟩ := urlunparse_no_params bp.scheme
            (if bp.scheme ∈ uses_netloc then bp.netloc else [])
            ("collections/".data ++ ci ++ "/items/".data ++ ii)
          rw [hpre] at h
          injection h with h
          exact ⟨pre, [], by rw [List.append_nil]; exact h⟩
        | cons a A' =>
          rw [hA] at h
          rw [show ((a :: A') ++ ["collections".data, ci, "items".data, ii] :
            List PyStr) = a :: ((A' ++ ["collections".data, ci, "items".data]) ++ [ii])
            from by simp] at h
          rw [filterInterior_shape] at h
          rw [List.filter_append] at h
          rw [show List.filter (fun s => decide (s ≠ []))
            ["collections".data, ci, "items".data] =
            ["collections".data, ci, "items".data] from by simp [hc1]] at h
          rw [show (a :: (List.filter (fun s => decide (s ≠ [])) A' ++
              ["collections".data, ci, "items".data] ++ [ii]) : List PyStr) =
            (a :: List.filter (fun s => decide (s ≠ [])) A') ++
              ["collections".data, ci, "items".data, ii] from by simp] at h
          rw [resolveSegs_append_no_dots _ _ hlit4] at h
          rw [show ((a :: List.filter (fun s => decide (s ≠ [])) A') ++
              ["collections".data, ci, "items".data, ii] : List PyStr).getLastD [] =
            ii from by
              rw [show ((a :: List.filter (fun s => decide (s ≠ [])) A') ++
                ["collections".data, ci, "items".data, ii] : List PyStr) =
                ((a :: List.filter (fun s => decide (s ≠ [])) A') ++
                  ["collections".data, ci, "items".data]) ++ [ii] from by simp]
              exact getLastD_concat _ _ _] at h
          rw [if_neg (show ¬ (ii = ['.'] ∨ ii = ['.', '.']) from by
            rintro (e | e)
            · exact (hi2 '.' (e ▸ List.mem_cons_self '.' [])).2.2.2.2.2.2 rfl
            · exact (hi2 '.' (e ▸ List.mem_cons_self '.' ['.'])).2.2.2.2.2.2 rfl)] at h
          have hjoin : joinChar ["collections".data, ci, "items".data, ii] '/' =
              "collections/".data ++ ci ++ "/items/".data ++ ii := by
            rw [show joinChar ["collections".data, ci, "items".data, ii] '/' =
              "collections".data ++ '/' :: (ci ++ '/' :: ("items".data ++ '/' :: ii))
              from rfl]
            simp only [List.append_assoc, List.cons_append, List.nil_append]
          cases hR : resolveSegs (a :: List.filter (fun s => decide (s ≠ [])) A') with
          | nil =>
            rw [hR, List.nil_append, hjoin, if_neg hune] at h
            obtain ⟨pre, hpre⟩ := urlunparse_no_params bp.scheme
              (if bp.scheme ∈ uses_netloc then bp.netloc else [])
              ("collections/".data ++ ci ++ "/items/".data ++ ii)
            rw [hpre] at h
            injection h with h
            exact ⟨pre, [], by rw [List.append_nil]; exact h⟩
          | cons r0 R' =>
            rw [hR] at h
            rw [joinChar_append (r0 :: R') _ '/' (by simp) (by simp), hjoin] at h
            rw [if_neg (show ¬ (joinChar (r0 :: R') '/' ++ '/' ::
              ("collections/".data ++ ci ++ "/items/".data ++ ii) = []) from by
                simp)] at h
            obtain ⟨pre, hpre⟩ := urlunparse_no_params bp.scheme
              (if bp.scheme ∈ uses_netloc then bp.netloc else [])
              (joinChar (r0 :: R') '/' ++ '/' ::
                ("collections/".data ++ ci ++ "/items/".data ++ ii))
            rw [hpre] at h
            injection h with h
            refine ⟨pre ++ joinChar (r0 :: R') '/' ++ ['/'], [], ?_⟩
            rw [List.append_nil, ← h]
            simp
      · rw [if_pos (Or.inr hrel)] at h
        injection h with h
        exact h ▸ List.infix_refl _

/-- C3 (amended): whenever `browsable_catalog` returns a catalog, the last
two links are the root link — whose href is the base URL verbatim,
unconditionally — and the self link; provided the catalog path is made of
plain identifier characters and slashes, the self link's href ends with
`/catalogs/{catalog_path}` with leading and trailing slashes stripped from
the path. -/
theorem c3_root_self_links (node : CatalogNode) (catalog_path base_url : PyStr)
    (cat : Catalog)
    (h : browsable_catalog node catalog_path base_url = Except.ok cat) :
    ∃ rootL selfL,
      cat.links.dropLast.getLast? = some rootL ∧
      cat.links.getLast? = some selfL ∧
      rootL.rel = relRoot ∧ rootL.type = mimeJson ∧ rootL.href = base_url ∧
      selfL.rel = relSelf ∧ selfL.type = mimeJson ∧
      ((∀ c ∈ catalog_path, plainChar c ∨ c = '/') →
        ("/catalogs/".data ++ pyStrip catalog_path '/') <:+ selfL.href) := by
  obtain ⟨its, clinks, ilinks, self_href, hits, h1, h2, h3, hlinks, hdesc⟩ :=
    browsable_catalog_ok node catalog_path base_url cat h
  have hdrop : (cat.links.map some).drop (clinks.length + ilinks.length) =
      [some ⟨relRoot, mimeJson, none, base_url⟩,
       some ⟨relSelf, mimeJson, none, self_href⟩] := by
    rw [hlinks]
    exact List.drop_left' (by simp)
  rw [← List.map_drop] at hdrop
  have htail := map_some_injective
    (cat.links.drop (clinks.length + ilinks.length))
    [⟨relRoot, mimeJson, none, base_url⟩, ⟨relSelf, mimeJson, none, self_href⟩] hdrop
  have hsplitlinks : cat.links =
      cat.links.take (clinks.length + ilinks.length) ++
        [⟨relRoot, mimeJson, none, base_url⟩,
         ⟨relSelf, mimeJson, none, self_href⟩] := by
    conv_lhs => rw [← List.take_append_drop (clinks.length + ilinks.length) cat.links]
    rw [htail]
  refine ⟨⟨relRoot, mimeJson, none, base_url⟩,
    ⟨relSelf, mimeJson, none, self_href⟩, ?_, ?_, rfl, rfl, rfl, rfl, rfl, ?_⟩
  · rw [hsplitlinks]; simp
  · rw [hsplitlinks]; simp
  · intro hp
    refine urljoin_catalogs_suffix base_url (pyStrip catalog_path '/') self_href
      ?_ ?_ h3
    · intro c hcm
      rcases hp c (mem_pyStrip catalog_path '/' c hcm) with hpc | rfl
      · exact ⟨plainChar_gt32 c hpc, plainChar_ne c hpc '#' (by decide),
          plainChar_ne c hpc '?' (by decide), plainChar_ne c hpc ';' (by decide)⟩
      · exact ⟨by decide, by decide, by decide, by decide⟩
    · intro seg hsegm
      constructor <;> intro e
      · have hdot : '.' ∈ pyStrip catalog_path '/' :=
          mem_of_mem_splitOnChar _ '/' seg hsegm '.' (e ▸ List.mem_cons_self '.' [])
        rcases hp '.' (mem_pyStrip _ _ _ hdot) with hpc | hslash
        · exact absurd hpc (by decide)
        · exact absurd hslash (by decide)
      · have hdot : '.' ∈ pyStrip catalog_path '/' :=
          mem_of_mem_splitOnChar _ '/' seg hsegm '.' (e ▸ List.mem_cons_self '.' ['.'])
        rcases hp '.' (mem_pyStrip _ _ _ hdot) with hpc | hslash
        · exact absurd hpc (by decide)
        · exact absurd hslash (by decide)

/-- Witness for C3: the self link of a concrete catalog run ends with the
normalized catalog path. -/
theorem c3_witness :
    ("/catalogs/".data ++ pyStrip "/a/b/".data '/') <:+
      "http://example.com/catalogs/a/b".data := by
  obtain ⟨rootL, selfL, hr, hsl, _, _, _, _, _, hsuf⟩ :=
    c3_root_self_links
      ⟨"k".data, none, none, [.catalog "a".data [] none (some "T".data) none],
        some [("c".data, "i".data)]⟩
      "/a/b/".data "http://example.com/".data
      ⟨"Catalog".data, "k".data, "Generated description for k".data, STAC_VERSION,
        [⟨relChild, mimeJson, some "T".data, "http://example.com/a".data⟩,
         ⟨relItem, mimeJson, none, "http://example.com/collections/c/items/i".data⟩,
         ⟨relRoot, mimeJson, none, "http://example.com/".data⟩,
         ⟨relSelf, mimeJson, none, "http://example.com/catalogs/a/b".data⟩]⟩
      rfl
  have h2 : some (⟨relSelf, mimeJson, none,
      "http://example.com/catalogs/a/b".data⟩ : Link) = some selfL := by
    rw [← hsl]
    rfl
  injection h2 with h2
  rw [← h2] at hsuf
  exact hsuf (by decide)

/-- Counterexample for C3 as stated: a catalog path of `..` is resolved
away as a dot segment by urljoin, so the self href is just the base URL
and does not end with `/catalogs/..`. -/
theorem c3_counterexample :
    browsable_catalog ⟨"k".data, none, none, [], some []⟩ "..".data
        "http://example.com/".data =
      Except.ok ⟨"Catalog".data, "k".data, "Generated description for k".data,
        STAC_VERSION,
        [⟨relRoot, mimeJson, none, "http://example.com/".data⟩,
         ⟨relSelf, mimeJson, none, "http://example.com/".data⟩]⟩ ∧
    ¬ ("/catalogs/".data ++ pyStrip "..".data '/') <:+ "http://example.com/".data :=
  ⟨rfl, by decide⟩

/-- C5 (amended): for nonempty ids of plain identifier characters,
whenever `browsable_item_link` returns a link it has rel `item`, type
`application/json`, and an href containing
`collections/{collection_id}/items/{item_id}` as a substring. -/
theorem c5_item_link (collection_id item_id base_url : PyStr) (l : Link)
    (hc : collection_id ≠ [] ∧ ∀ c ∈ collection_id, plainChar c)
    (hi : item_id ≠ [] ∧ ∀ c ∈ item_id, plainChar c)
    (h : browsable_item_link (collection_id, item_id) base_url = Except.ok l) :
    l.rel = relItem ∧ l.type = mimeJson ∧
    ("collections/".data ++ collection_id ++ "/items/".data ++ item_id) <:+:
      l.href := by
  unfold browsable_item_link at h
  cases hu : urljoin base_url
      ("collections/".data ++ collection_id ++ "/items/".data ++ item_id) with
  | error e => rw [hu] at h; simp [Except.instMonad, Except.bind] at h
  | ok href =>
    rw [hu] at h
    simp only [Except.instMonad, Except.bind] at h
    injection h with h
    have hfc : ∀ c ∈ collection_id, 32 < c.toNat ∧ c ≠ '#' ∧ c ≠ '?' ∧ c ≠ ';' ∧
        c ≠ ':' ∧ c ≠ '/' ∧ c ≠ '.' := by
      intro c hcm
      have hpc := hc.2 c hcm
      exact ⟨plainChar_gt32 c hpc, plainChar_ne c hpc '#' (by decide),
        plainChar_ne c hpc '?' (by decide), plainChar_ne c hpc ';' (by decide),
        plainChar_ne c hpc ':' (by decide), plainChar_ne c hpc '/' (by decide),
        plainChar_ne c hpc '.' (by decide)⟩
    have hfi : ∀ c ∈ item_id, 32 < c.toNat ∧ c ≠ '#' ∧ c ≠ '?' ∧ c ≠ ';' ∧
        c ≠ ':' ∧ c ≠ '/' ∧ c ≠ '.' := by
      intro c hcm
      have hpc := hi.2 c hcm
      exact ⟨plainChar_gt32 c hpc, plainChar_ne c hpc '#' (by decide),
        plainChar_ne c hpc '?' (by decide), plainChar_ne c hpc ';' (by decide),
        plainChar_ne c hpc ':' (by decide), plainChar_ne c hpc '/' (by decide),
        plainChar_ne c hpc '.' (by decide)⟩
    have hin := urljoin_collections_infix base_url collection_id item_id href
      hc.1 hfc hi.1 hfi hu
    rw [← h]
    exact ⟨rfl, rfl, hin⟩

/-- Witness for C5 at concrete ids and base URL. -/
theorem c5_witness :
    ("collections/".data ++ "c".data ++ "/items/".data ++ "i".data) <:+:
      "http://example.com/collections/c/items/i".data := by
  have h := c5_item_link "c".data "i".data "http://example.com/".data
    ⟨relItem, mimeJson, none, "http://example.com/collections/c/items/i".data⟩
    ⟨by decide, by decide⟩ ⟨by decide, by decide⟩ rfl
  exact h.2.2

/-- Counterexample for C5 as stated: a collection id of `..` is resolved
away as a dot segment by urljoin, so the href lacks the claimed
substring. -/
theorem c5_counterexample :
    browsable_item_link ("..".data, "i".data) "http://example.com/".data =
      Except.ok ⟨relItem, mimeJson, none, "http://example.com/items/i".data⟩ ∧
    ¬ ("collections/".data ++ "..".data ++ "/items/".data ++ "i".data) <:+:
        "http://example.com/items/i".data :=
  ⟨rfl, by decide⟩

end StacHierarchy
